import Mathlib

/-!
Verification of the multi-source service aggregation pipeline of the
refugee-assist repository against its design document.

The definitions below are shallow embeddings of the TypeScript source:

* `searchServices` in `src/lib/languages.ts` — the aggregator / ranker
  (tagging with priority and badge, stable sort, truncation to five,
  per-source failure handling);
* the `osm-lookup` edge function — the replace-by-country refresh of
  OSM-sourced rows in the `services` table;
* the `google-places` edge function — request parsing, per-category place
  dedup, per-item detail enrichment, and the batched upsert-by-place-id
  refresh of GooglePlaces-sourced rows;
* the shared `retryFetch` helpers — the resilient fetch client.

Network calls and database outcomes are modelled by explicit outcome
parameters (`Except`/`Option` values or oracles); the persisted `services`
table is modelled by an explicit list-of-rows state with a fresh-id counter.
-/

namespace RefugeeAssist

variable {α : Type}

/-! ## Aggregator / ranker (`searchServices`, `src/lib/languages.ts`) -/

/-- A service record as tagged by `searchServices`: the aggregator spreads
each fetched record with a trust `priority` and a display `badge`
(internal records get priority 1 / `Verified`, OSM records 2 / `OSM`,
Google records 3 / `GooglePlaces`). -/
structure Tagged (α : Type) where
  item : α
  priority : Nat
  badge : String
deriving DecidableEq, Repr

/-- `(internalServices || []).map(service => ({ ...service, priority, badge }))`
applied to one source bucket. -/
def tagAll (l : List α) (p : Nat) (b : String) : List (Tagged α) :=
  l.map (fun x => ⟨x, p, b⟩)

/-- Insertion step of the stable sort: a new element is placed before the
first element whose priority is not strictly smaller, so elements with equal
priority keep their relative input order. -/
def insertByPriority (x : Tagged α) : List (Tagged α) → List (Tagged α)
  | [] => [x]
  | y :: ys => if y.priority < x.priority then y :: insertByPriority x ys else x :: y :: ys

/-- Stable sort by ascending priority.  `searchServices` sorts with
`.sort((a, b) => a.priority - b.priority)`; `Array.prototype.sort` is
stable (ES2019), and stable insertion sort is its extensional model. -/
def sortByPriority : List (Tagged α) → List (Tagged α)
  | [] => []
  | x :: xs => insertByPriority x (sortByPriority xs)

/-- Return shape of `searchServices`: the post-sort, post-truncation top five,
grouped back into per-source buckets, plus the `error` field. -/
structure SearchResult (α : Type) where
  internal : List (Tagged α)
  osm : List (Tagged α)
  google : List (Tagged α)
  error : Option String
deriving DecidableEq, Repr

/-- Merge step of `searchServices`: concatenate the tagged internal, OSM and
Google buckets in that fixed order, sort by ascending priority with the
stable sort, and truncate to the top 5 total results. -/
def searchMerge (internal osm google : List α) : List (Tagged α) :=
  (sortByPriority
    (tagAll internal 1 "Verified" ++ tagAll osm 2 "OSM" ++
      tagAll google 3 "GooglePlaces")).take 5

/-- `searchServices(type, country, userLocation?)`.  The internal store query
outcome `db` and the two edge-function call outcomes `osmR`, `googleR` are
explicit parameters (`Except.error` is a failed call).  A database error is
thrown to the outer catch, which returns empty buckets and a non-null
`error`; a failed OSM or Google call is caught per source and contributes
`{ services: [] }`, and `Promise.allSettled` never rejects. -/
def searchServices (db osmR googleR : Except String (List α)) : SearchResult α :=
  match db with
  | .error e => ⟨[], [], [], some ("Database error: " ++ e)⟩
  | .ok internalServices =>
    let osmServices := match osmR with | .ok l => l | .error _ => []
    let googleServices := match googleR with | .ok l => l | .error _ => []
    let top := searchMerge internalServices osmServices googleServices
    ⟨top.filter (fun t => t.priority == 1),
     top.filter (fun t => t.priority == 2),
     top.filter (fun t => t.priority == 3),
     none⟩

/-! ## Persisted `services` table and the two refresh policies -/

/-- A persisted `services` row (the columns the refresh policies read or
write; other columns play no role in the claims).  `id` is the
store-generated identity; `created_by` is null for system-imported rows. -/
structure Row where
  id : Nat
  name : String
  type : String
  address : String
  phone : String
  hours : String
  country : String
  source : String
  osm_id : Option String
  google_place_id : Option String
  created_by : Option String
deriving DecidableEq, Repr

/-- The `services` table: its rows plus the store's fresh-id counter. -/
structure Store where
  rows : List Row
  nextId : Nat
deriving DecidableEq, Repr

/-- Inserting one row lets the store generate the row id. -/
def insertRow (s : Store) (mk : Nat → Row) : Store :=
  ⟨s.rows ++ [mk s.nextId], s.nextId + 1⟩

/-- A normalized OSM record as produced by `fetchOsmServices` in the
`osm-lookup` edge function; each fetched record is tagged `source: 'OSM'`
and carries the requested country when inserted. -/
structure OsmRecord where
  osm_id : String
  name : String
  type : String
  address : String
  phone : String
  hours : String
deriving DecidableEq, Repr

/-- The row inserted for a fetched OSM record: `created_by` is null
(system-imported), `source` is `OSM`, `country` is the requested country. -/
def OsmRecord.toRow (r : OsmRecord) (country : String) (id : Nat) : Row :=
  ⟨id, r.name, r.type, r.address, r.phone, r.hours, country, "OSM",
    some r.osm_id, none, none⟩

/-- Whether a row belongs to the OSM partition of a country — the rows that
the replace-by-country delete targets
(`.delete().eq('source', 'OSM').eq('country', country)`). -/
def Row.isOsmFor (row : Row) (country : String) : Bool :=
  row.source == "OSM" && row.country == country

/-- The rows the bulk insert appends for the fetched set, with the ids the
store generates starting at `n`. -/
def osmRowsFrom (n : Nat) (country : String) : List OsmRecord → List Row
  | [] => []
  | r :: rs => r.toRow country n :: osmRowsFrom (n + 1) country rs

/-- Store effect of the `osm-lookup` edge function: when the freshly fetched
set is non-empty, delete every `(source=OSM, country)` row, then insert the
fetched set; when the fetched set is empty, the guard
`if (osmServices.length > 0)` skips both the delete and the insert. -/
def osmLookup (store : Store) (country : String) (fetched : List OsmRecord) : Store :=
  if fetched.length > 0 then
    let afterDelete : Store :=
      ⟨store.rows.filter (fun row => !(row.isOsmFor country)), store.nextId⟩
    fetched.foldl (fun s r => insertRow s (r.toRow country)) afterDelete
  else store

/-- A formatted GooglePlaces record — one entry of `formattedPlaces` in the
`google-places` edge function (the upsert payload columns the claims are
about; `id` and `created_by` are not part of the payload). -/
structure GoogleRecord where
  google_place_id : String
  name : String
  type : String
  address : String
  phone : String
  hours : String
  country : String
deriving DecidableEq, Repr

/-- Updating an existing row in place from an upsert payload record: every
payload column is overwritten; `id`, `created_by` and `osm_id` are not in
the payload and are preserved. -/
def Row.updateFrom (row : Row) (r : GoogleRecord) : Row :=
  { row with
    name := r.name, type := r.type, address := r.address,
    phone := r.phone, hours := r.hours, country := r.country,
    source := "GooglePlaces", google_place_id := some r.google_place_id }

/-- The row inserted for a new GooglePlaces record (`created_by` absent from
the payload, hence null). -/
def GoogleRecord.toRow (r : GoogleRecord) (id : Nat) : Row :=
  ⟨id, r.name, r.type, r.address, r.phone, r.hours, r.country, "GooglePlaces",
    none, some r.google_place_id, none⟩

/-- Whether some row already carries the conflict key — the
`services_google_place_id_key` unique constraint is on `google_place_id`
alone. -/
def Store.hasKey (s : Store) (k : String) : Bool :=
  s.rows.any (fun row => row.google_place_id == some k)

/-- The conflict-resolution action on one stored row for one payload
record: a row holding the record's key is updated in place, any other row
is untouched. -/
def updIf (r : GoogleRecord) (row : Row) : Row :=
  if row.google_place_id == some r.google_place_id then row.updateFrom r else row

/-- `ON CONFLICT (google_place_id) DO UPDATE` for one payload record: update
the row holding the key in place, otherwise insert a fresh row.  (Under the
unique constraint at most one row holds the key, so the map touches exactly
that row.) -/
def upsertOne (s : Store) (r : GoogleRecord) : Store :=
  if s.hasKey r.google_place_id then
    ⟨s.rows.map (updIf r), s.nextId⟩
  else insertRow s r.toRow

/-- The cumulative in-place effect of a record sequence on one stored row. -/
def applyAll (records : List GoogleRecord) (row : Row) : Row :=
  records.foldl (fun row r => updIf r row) row

/-- Row identity preserved by an in-place update: same `id`, same
`created_by` and same conflict key. -/
def SameIdentity (row row' : Row) : Prop :=
  row'.id = row.id ∧ row'.created_by = row.created_by ∧
    row'.google_place_id = row.google_place_id

/-- The non-null conflict keys present in the store, in row order (the
`services_google_place_id_key` unique constraint requires them pairwise
distinct; nulls are exempt). -/
def Store.keys (s : Store) : List String :=
  s.rows.filterMap (fun row => row.google_place_id)

/-- One batch, processed as one upsert statement. -/
def upsertBatch (s : Store) (batch : List GoogleRecord) : Store :=
  batch.foldl upsertOne s

/-- All records of a refresh, upserted in input order. -/
def upsertAll (s : Store) (records : List GoogleRecord) : Store :=
  records.foldl upsertOne s

/-- The batch slicing loop body: repeatedly take a slice of 10 and recurse
on the rest.  The fuel argument (the initial list length, which the loop
never exhausts since every step consumes at least one record) makes the
recursion structural. -/
def chunksOfGo : Nat → List GoogleRecord → List (List GoogleRecord)
  | _, [] => []
  | 0, l => [l]
  | fuel + 1, r :: rs => ((r :: rs).take 10) :: chunksOfGo fuel ((r :: rs).drop 10)

/-- `formattedPlaces.slice(i, i + batchSize)` for `i = 0, 10, 20, ...` with
`batchSize = 10`. -/
def chunksOf (l : List GoogleRecord) : List (List GoogleRecord) :=
  chunksOfGo l.length l

/-- The batch loop of the `google-places` handler persistence step.
`fail i` tells whether the database rejects the `i`-th batch upsert (an
external outcome); a rejected batch is not committed, the loop throws, and
the error propagates to the caller (the handler responds with status 500).
Returns the resulting store and whether the refresh errored. -/
def runBatches (fail : Nat → Bool) : Store → Nat → List (List GoogleRecord) → Store × Bool
  | s, _, [] => (s, false)
  | s, i, b :: bs =>
    if fail i then (s, true) else runBatches fail (upsertBatch s b) (i + 1) bs

/-- Store effect plus error flag of the `google-places` handler persistence
step: nothing is written when there are no formatted places
(`if (formattedPlaces.length > 0)`), otherwise the records are upserted in
batches of 10. -/
def googleUpsertStep (store : Store) (records : List GoogleRecord) (fail : Nat → Bool) :
    Store × Bool :=
  if records.length > 0 then runBatches fail store 0 (chunksOf records) else (store, false)

/-- Store effect of one aggregation call (`searchServices`).  The internal
query is a plain select, but the call POSTs to the `osm-lookup` and
`google-places` edge functions, whose handlers run their refresh writes
inline before responding.  `osmFetched` and `googleFetched` are the record
sets the two providers returned; `gFail` is the database outcome oracle for
the Google batch upserts. -/
def searchPipelineStore (store : Store) (country : String) (osmFetched : List OsmRecord)
    (googleFetched : List GoogleRecord) (gFail : Nat → Bool) : Store :=
  (googleUpsertStep (osmLookup store country osmFetched) googleFetched gFail).1

/-! ## Resilient fetch client (`retryFetch`) -/

/-- The retry loop shared by the fetch clients.  `attempt i` is the outcome
of the `i`-th attempt (an external event), `delay i` the sleep performed
after a failed attempt `i` when further attempts remain, and the last
argument the number of attempts still allowed.  Returns the final outcome,
the number of attempts issued, and the total time slept.  (With zero allowed
attempts the JS code throws the initial null `lastError`.) -/
def retryGo (attempt : Nat → Except String α) (delay : Nat → Nat) :
    Nat → Nat → Except String α × Nat × Nat
  | _, 0 => (.error "", 0, 0)
  | i, 1 =>
    match attempt i with
    | .ok v => (.ok v, 1, 0)
    | .error e => (.error e, 1, 0)
  | i, n + 2 =>
    match attempt i with
    | .ok v => (.ok v, 1, 0)
    | .error _ =>
      let r := retryGo attempt delay (i + 1) (n + 1)
      (r.1, r.2.1 + 1, r.2.2 + delay i)

/-- `retryFetch(url, options, retries)`: run the attempt loop from attempt 0. -/
def retryFetch (attempt : Nat → Except String α) (delay : Nat → Nat) (retries : Nat) :
    Except String α × Nat × Nat :=
  retryGo attempt delay 0 retries

/-- Backoff schedule of the frontend `retryFetch` (`src/lib/languages.ts`):
`Math.min(backoff * Math.pow(2, i) + jitter, 5000)` with
`jitter = Math.random() * 1000`, modelled by a jitter oracle bounded by
1000. -/
def frontendDelay (backoff : Nat) (jitter : Nat → Nat) (i : Nat) : Nat :=
  min (backoff * 2 ^ i + jitter i) 5000

/-- Backoff schedule of the edge-function `retryFetch` copies
(`google-places`, `osm-lookup`): `Math.pow(2, i) * 1000`, with no jitter
term and no cap. -/
def edgeDelay (i : Nat) : Nat :=
  2 ^ i * 1000

/-! ## Deduplicator (`searchNearbyPlaces` seen-set filter) -/

/-- First-seen-wins filter with a seen-key set, as in `searchNearbyPlaces`:
the filter callback skips an item whose identity key is in `seenPlaceIds`
and otherwise records the key and keeps the item. -/
def dedupeGo {κ : Type} [DecidableEq κ] (key : α → κ) : List κ → List α → List α
  | _, [] => []
  | seen, x :: xs =>
    if key x ∈ seen then dedupeGo key seen xs
    else x :: dedupeGo key (key x :: seen) xs

/-- The deduplication step: the seen set starts empty, scoped to one
aggregation call. -/
def dedupe {κ : Type} [DecidableEq κ] (key : α → κ) (l : List α) : List α :=
  dedupeGo key [] l

/-! ## Detail enrichment (`searchNearbyPlaces` / `getPlaceDetails`) -/

/-- A place as returned by the nearby-search call: the summary fields the
adapter already knows before detail enrichment.  `geometry` holds the
summary coordinates when the stub carries them. -/
structure PlaceSummary where
  place_id : String
  name : String
  vicinity : String
  geometry : Option (Int × Int)
deriving DecidableEq, Repr

/-- The fields of a place-details response, each present or absent. -/
structure PlaceDetails where
  name : Option String
  formatted_address : Option String
  formatted_phone_number : Option String
  website : Option String
  geometry : Option (Int × Int)
deriving DecidableEq, Repr

/-- A place after the enrichment step `{ ...place, ...details, country }`. -/
structure EnrichedPlace where
  place_id : String
  name : String
  vicinity : String
  geometry : Option (Int × Int)
  formatted_address : Option String
  formatted_phone_number : Option String
  website : Option String
  country : String
deriving DecidableEq, Repr

/-- Per-item enrichment in `searchNearbyPlaces`.  `getPlaceDetails` catches
every fetch/API failure internally and returns null, so the per-item catch
branch never fires and the item is always kept: an absent details object
(`details = none`, the failure case) leaves every summary field as known and
adds no detail fields (spreading null adds nothing); a present details
object overwrites the fields it carries (object spread).  The resolved
`country` is attached in both cases. -/
def enrichPlace (p : PlaceSummary) (details : Option PlaceDetails) (country : String) :
    EnrichedPlace :=
  match details with
  | none => ⟨p.place_id, p.name, p.vicinity, p.geometry, none, none, none, country⟩
  | some d =>
    ⟨p.place_id, d.name.getD p.name, p.vicinity,
      (match d.geometry with | some g => some g | none => p.geometry),
      d.formatted_address, d.formatted_phone_number, d.website, country⟩

/-- The enrichment stage over one category's deduplicated places: every
unique place is enriched and kept (`Promise.allSettled` plus the internal
catches mean no promise is ever rejected).  `details` is the detail-call
outcome oracle (null = the detail lookup failed or returned an error
status). -/
def enrichAll (places : List PlaceSummary) (details : String → Option PlaceDetails)
    (country : String) : List EnrichedPlace :=
  places.map (fun p => enrichPlace p (details p.place_id) country)

/-! ## Request parsing of the `google-places` handler -/

/-- The `location` field of a `google-places` request body: absent, present
but not an object with numeric `lat`/`lng` fields, or well-formed. -/
inductive LocationField where
  | missing
  | malformed
  | coords (lat lng : Int)
deriving DecidableEq, Repr

/-- The handler's location defaulting: a well-formed `{lat, lng}` object is
used exactly as given, anything else falls back to null island `(0, 0)`. -/
def searchLocationOf : LocationField → Int × Int
  | .coords lat lng => (lat, lng)
  | _ => (0, 0)

/-- The handler's radius defaulting `radius || 50000` (JS `||`: an absent —
or zero — radius yields the 50000 default). -/
def effectiveRadius : Option Nat → Nat
  | none => 50000
  | some 0 => 50000
  | some (n + 1) => n + 1

theorem mem_insertByPriority {x a : Tagged α} {l : List (Tagged α)} :
    a ∈ insertByPriority x l ↔ a = x ∨ a ∈ l := by
  induction l with
  | nil => simp [insertByPriority]
  | cons y ys ih =>
    by_cases h : y.priority < x.priority <;>
      simp [insertByPriority, h, ih] <;> tauto

theorem pairwise_insertByPriority {x : Tagged α} {l : List (Tagged α)}
    (h : l.Pairwise (fun a b => a.priority ≤ b.priority)) :
    (insertByPriority x l).Pairwise (fun a b => a.priority ≤ b.priority) := by
  induction l with
  | nil => simp [insertByPriority]
  | cons y ys ih =>
    rcases List.pairwise_cons.mp h with ⟨hy, hys⟩
    by_cases hc : y.priority < x.priority
    · simp only [insertByPriority, if_pos hc]
      refine List.pairwise_cons.mpr ⟨?_, ih hys⟩
      intro a ha
      rcases mem_insertByPriority.mp ha with rfl | ha
      · exact Nat.le_of_lt hc
      · exact hy a ha
    · simp only [insertByPriority, if_neg hc]
      refine List.pairwise_cons.mpr ⟨?_, h⟩
      intro a ha
      have hxy : x.priority ≤ y.priority := Nat.not_lt.mp hc
      rcases List.mem_cons.mp ha with rfl | ha
      · exact hxy
      · exact le_trans hxy (hy a ha)

theorem sortByPriority_pairwise (l : List (Tagged α)) :
    (sortByPriority l).Pairwise (fun a b => a.priority ≤ b.priority) := by
  induction l with
  | nil => simp [sortByPriority]
  | cons x xs ih => exact pairwise_insertByPriority ih

theorem filter_insertByPriority (x : Tagged α) (l : List (Tagged α)) (p : Nat)
    (hl : l.Pairwise (fun a b => a.priority ≤ b.priority)) :
    (insertByPriority x l).filter (fun t => t.priority == p) =
      (if x.priority = p then [x] else []) ++ l.filter (fun t => t.priority == p) := by
  induction l with
  | nil =>
    by_cases h : x.priority = p <;> simp [insertByPriority, h]
  | cons y ys ih =>
    rcases List.pairwise_cons.mp hl with ⟨hy, hys⟩
    by_cases hc : y.priority < x.priority
    · have hrec := ih hys
      simp only [insertByPriority, if_pos hc, List.filter_cons]
      by_cases hyp : y.priority = p
      · have hxp : ¬ x.priority = p := by omega
        simp only [if_neg hxp, List.nil_append] at hrec
        simp [hyp, hxp, hrec]
      · simp [hyp, hrec]
    · simp only [insertByPriority, if_neg hc, List.filter_cons]
      by_cases hxp : x.priority = p <;> simp [hxp]

theorem filter_sortByPriority (l : List (Tagged α)) (p : Nat) :
    (sortByPriority l).filter (fun t => t.priority == p) =
      l.filter (fun t => t.priority == p) := by
  induction l with
  | nil => rfl
  | cons x xs ih =>
    have h := filter_insertByPriority x (sortByPriority xs) p (sortByPriority_pairwise xs)
    by_cases hp : x.priority = p <;>
      simp [sortByPriority, h, hp, ih, List.filter_cons]

theorem sortByPriority_eq_of_pairwise {l : List (Tagged α)}
    (h : l.Pairwise (fun a b => a.priority ≤ b.priority)) : sortByPriority l = l := by
  induction l with
  | nil => rfl
  | cons x xs ih =>
    rcases List.pairwise_cons.mp h with ⟨hx, hxs⟩
    have hstep : sortByPriority (x :: xs) = insertByPriority x (sortByPriority xs) := rfl
    rw [hstep, ih hxs]
    cases xs with
    | nil => rfl
    | cons y ys =>
      have hyx : ¬ y.priority < x.priority :=
        Nat.not_lt.mpr (hx y (List.mem_cons_self y ys))
      simp [insertByPriority, hyx]

theorem mem_tagAll {t : Tagged α} {l : List α} {p : Nat} {s : String} :
    t ∈ tagAll l p s → t.priority = p := by
  intro h
  rcases List.mem_map.mp h with ⟨a, _, rfl⟩
  rfl

theorem tagAll_pairwise (l : List α) (p : Nat) (s : String) :
    (tagAll l p s).Pairwise (fun a b => a.priority ≤ b.priority) := by
  induction l with
  | nil => simp [tagAll]
  | cons x xs ih =>
    refine List.pairwise_cons.mpr ⟨?_, ih⟩
    intro a ha
    have := mem_tagAll ha
    simp [tagAll, this]

theorem merged_pairwise (internal osm google : List α) :
    (tagAll internal 1 "Verified" ++ tagAll osm 2 "OSM" ++
      tagAll google 3 "GooglePlaces").Pairwise
        (fun a b => a.priority ≤ b.priority) := by
  refine List.pairwise_append.mpr ⟨?_, tagAll_pairwise _ _ _, ?_⟩
  · refine List.pairwise_append.mpr ⟨tagAll_pairwise _ _ _, tagAll_pairwise _ _ _, ?_⟩
    intro a ha b hb
    have h1 := mem_tagAll ha
    have h2 := mem_tagAll hb
    omega
  · intro a ha b hb
    have h2 := mem_tagAll hb
    rcases List.mem_append.mp ha with ha | ha
    · have h1 := mem_tagAll ha
      omega
    · have h1 := mem_tagAll ha
      omega

theorem tagAll_length (l : List α) (p : Nat) (s : String) :
    (tagAll l p s).length = l.length := by
  simp [tagAll]

theorem tagAll_take (l : List α) (p : Nat) (s : String) (n : Nat) :
    (tagAll l p s).take n = tagAll (l.take n) p s := by
  simp [tagAll, List.map_take]

theorem filter_tagAll_self (l : List α) (p : Nat) (s : String) :
    (tagAll l p s).filter (fun t => t.priority == p) = tagAll l p s := by
  induction l with
  | nil => rfl
  | cons x xs ih =>
    simp only [tagAll, List.map_cons, List.filter_cons] at ih ⊢
    simp [ih]

theorem filter_tagAll_ne (l : List α) (p q : Nat) (s : String) (h : ¬ p = q) :
    (tagAll l p s).filter (fun t => t.priority == q) = [] := by
  induction l with
  | nil => rfl
  | cons x xs ih =>
    simp only [tagAll, List.map_cons, List.filter_cons] at ih ⊢
    simp [ih, h]

theorem searchMerge_of_lengths (internal osm google : List α)
    (hi : internal.length = 2) (ho : osm.length = 2) (hg : google.length = 4) :
    searchMerge internal osm google =
      tagAll internal 1 "Verified" ++ tagAll osm 2 "OSM" ++
        tagAll (google.take 1) 3 "GooglePlaces" := by
  unfold searchMerge
  rw [sortByPriority_eq_of_pairwise (merged_pairwise internal osm google)]
  rw [List.take_append_eq_append_take, List.take_append_eq_append_take]
  simp only [tagAll_length, List.length_append, hi, ho]
  norm_num
  rw [List.take_of_length_le (by rw [tagAll_length, hi]; omega),
    List.take_of_length_le (by rw [tagAll_length, ho]; omega), tagAll_take]

/-- Claim C1: the aggregator merges internal (priority 1), OSM (priority 2)
and GooglePlaces (priority 3) results in that fixed order, sorts the combined
sequence by ascending priority with a stable sort (ties keep relative input
order: the sorted sequence is priority-sorted and each priority class is
preserved verbatim), truncates to the top 5 total results, and for 2 internal
records, 2 deduplicated OSM records and 4 Google records the output is
exactly the 2 internal records first, then the 2 OSM records, then the first
Google record. -/
theorem C1_priority_merge_top5 (internal osm google : List α)
    (hi : internal.length = 2) (ho : osm.length = 2) (hg : google.length = 4) :
    ((sortByPriority (tagAll internal 1 "Verified" ++ tagAll osm 2 "OSM" ++
        tagAll google 3 "GooglePlaces")).Pairwise
      (fun a b => a.priority ≤ b.priority))
    ∧ (∀ p, (sortByPriority (tagAll internal 1 "Verified" ++ tagAll osm 2 "OSM" ++
        tagAll google 3 "GooglePlaces")).filter (fun t => t.priority == p) =
        (tagAll internal 1 "Verified" ++ tagAll osm 2 "OSM" ++
          tagAll google 3 "GooglePlaces").filter (fun t => t.priority == p))
    ∧ searchServices (.ok internal) (.ok osm) (.ok google) =
        ⟨tagAll internal 1 "Verified", tagAll osm 2 "OSM",
         tagAll (google.take 1) 3 "GooglePlaces", none⟩ := by
  refine ⟨sortByPriority_pairwise _, fun p => filter_sortByPriority _ p, ?_⟩
  simp only [searchServices, searchMerge_of_lengths internal osm google hi ho hg,
    List.filter_append,
    filter_tagAll_self internal 1 "Verified",
    filter_tagAll_self osm 2 "OSM",
    filter_tagAll_self (google.take 1) 3 "GooglePlaces",
    filter_tagAll_ne osm 2 1 "OSM" (by omega),
    filter_tagAll_ne (google.take 1) 3 1 "GooglePlaces" (by omega),
    filter_tagAll_ne internal 1 2 "Verified" (by omega),
    filter_tagAll_ne (google.take 1) 3 2 "GooglePlaces" (by omega),
    filter_tagAll_ne internal 1 3 "Verified" (by omega),
    filter_tagAll_ne osm 2 3 "OSM" (by omega),
    List.append_nil, List.nil_append]

/-- Witness for claim C1 at a concrete input: 2 internal records, 2 OSM
records, 4 Google records; the aggregate output is the 2 internal records,
the 2 OSM records and the first Google record, in their per-source buckets. -/
theorem C1_priority_merge_top5_witness :
    ([10, 11] : List Nat).length = 2 ∧ ([20, 21] : List Nat).length = 2
    ∧ ([30, 31, 32, 33] : List Nat).length = 4
    ∧ searchServices (α := Nat) (.ok [10, 11]) (.ok [20, 21]) (.ok [30, 31, 32, 33]) =
        ⟨[⟨10, 1, "Verified"⟩, ⟨11, 1, "Verified"⟩],
         [⟨20, 2, "OSM"⟩, ⟨21, 2, "OSM"⟩],
         [⟨30, 3, "GooglePlaces"⟩], none⟩ :=
  ⟨rfl, rfl, rfl,
    (C1_priority_merge_top5 [10, 11] [20, 21] [30, 31, 32, 33] rfl rfl rfl).2.2⟩

/-- Counterexample to claim C2: when only the internal store query fails,
while the OSM call succeeds with one record and the Google call succeeds,
`searchServices` returns a non-null `error` and empty buckets, dropping the
OSM results — the `error` field is not reserved for the all-sources-fail
case. -/
theorem C2_counterexample :
    (searchServices (α := Nat) (.error "connection refused") (.ok [42]) (.ok [])).error =
        some "Database error: connection refused"
    ∧ (searchServices (α := Nat) (.error "connection refused") (.ok [42]) (.ok [])).osm =
        [] :=
  ⟨rfl, rfl⟩

/-- Claim C2 (amended): a failed OSM or Google call is tolerated — it
contributes an empty result list, the other sources' results are still
returned, and the aggregate `error` stays null; but the internal store is
not failure-isolated: `error` is non-null exactly when the internal store
query fails, and in that case all three buckets are empty regardless of the
other sources' outcomes (so in particular when all three sources fail). -/
theorem C2_partial_failure (e : String) (internal : List α)
    (osmR googleR : Except String (List α)) :
    (searchServices (.ok internal) osmR googleR).error = none
    ∧ searchServices (.ok internal) (.error e) googleR =
        searchServices (.ok internal) (.ok []) googleR
    ∧ searchServices (.ok internal) osmR (.error e) =
        searchServices (.ok internal) osmR (.ok [])
    ∧ searchServices (.error e) osmR googleR =
        ⟨[], [], [], some ("Database error: " ++ e)⟩ :=
  ⟨rfl, rfl, rfl, rfl⟩

theorem filter_osm_of_filter_not (country : String) (l : List Row) :
    (l.filter (fun row => !(row.isOsmFor country))).filter
      (fun row => row.isOsmFor country) = [] := by
  induction l with
  | nil => rfl
  | cons x xs ih =>
    by_cases h : x.isOsmFor country <;> simp [List.filter_cons, h, ih]

theorem filter_not_osm_idem (country : String) (l : List Row) :
    (l.filter (fun row => !(row.isOsmFor country))).filter
      (fun row => !(row.isOsmFor country)) =
      l.filter (fun row => !(row.isOsmFor country)) := by
  induction l with
  | nil => rfl
  | cons x xs ih =>
    by_cases h : x.isOsmFor country <;> simp [List.filter_cons, h, ih]

theorem foldl_insertRow_rows (country : String) (fetched : List OsmRecord) (s : Store) :
    (fetched.foldl (fun s r => insertRow s (r.toRow country)) s).rows =
      s.rows ++ osmRowsFrom s.nextId country fetched := by
  induction fetched generalizing s with
  | nil => simp [osmRowsFrom]
  | cons r rs ih =>
    simp only [List.foldl_cons, osmRowsFrom]
    rw [ih]
    simp [insertRow, List.append_assoc]

theorem mem_osmRowsFrom {row : Row} {country : String} {l : List OsmRecord} :
    ∀ {n : Nat}, row ∈ osmRowsFrom n country l → row.isOsmFor country = true := by
  induction l with
  | nil =>
    intro n h
    simp [osmRowsFrom] at h
  | cons r rs ih =>
    intro n h
    rcases List.mem_cons.mp h with rfl | h
    · simp [OsmRecord.toRow, Row.isOsmFor]
    · exact ih h

/-- Counterexample to claim C3: an aggregation call whose OSM provider
returns one record mutates the persisted store — the replace-by-country
write runs inline in the invoked `osm-lookup` function and inserts the
fetched row, so the store state after the call differs from the state
before it. -/
theorem C3_counterexample :
    searchPipelineStore ⟨[], 0⟩ "Jordan"
        [⟨"node/1", "Amman Clinic", "clinic", "", "", ""⟩] [] (fun _ => false) ≠
      ⟨[], 0⟩ := by
  decide

/-- Claim C3 (amended): the aggregation call's own `services` query is a
read-only select, but the call triggers the provider refresh writes inline
in the invoked lookup functions; the store is guaranteed unchanged only when
both providers fetch empty record sets, in which case both handlers skip
their writes. -/
theorem C3_read_only_when_empty (store : Store) (country : String) (gFail : Nat → Bool) :
    searchPipelineStore store country [] [] gFail = store := rfl

/-- Counterexample to claim C4: with an EMPTY freshly fetched OSM record set
for Kenya, the refresh leaves the store unchanged, so a stale OSM row for
Kenya survives — contrary to the claim's "including the empty set ... zero
stale OSM rows for X". -/
theorem C4_counterexample :
    osmLookup ⟨[⟨0, "Old OSM", "clinic", "", "", "", "Kenya", "OSM", some "node/9",
        none, none⟩], 1⟩ "Kenya" [] =
      ⟨[⟨0, "Old OSM", "clinic", "", "", "", "Kenya", "OSM", some "node/9",
        none, none⟩], 1⟩
    ∧ (osmLookup ⟨[⟨0, "Old OSM", "clinic", "", "", "", "Kenya", "OSM", some "node/9",
        none, none⟩], 1⟩ "Kenya" []).rows.filter
        (fun row => row.isOsmFor "Kenya") ≠ [] :=
  ⟨rfl, by decide⟩

/-- Claim C4 (amended): for a NON-empty freshly fetched OSM record set,
replace-by-country for country X leaves the store with exactly the new OSM
rows for X (with store-assigned ids) and zero stale OSM rows for X, while
every row outside the `(source=OSM, country=X)` partition — manual rows,
GooglePlaces rows, and OSM rows of other countries — is unchanged; for the
EMPTY fetched set, however, the handler skips the delete and the insert
entirely, so the store (stale OSM rows for X included) is left unchanged. -/
theorem C4_replace_by_country (store : Store) (country : String)
    (fetched : List OsmRecord) :
    (fetched ≠ [] →
      (osmLookup store country fetched).rows.filter
          (fun row => row.isOsmFor country) =
          osmRowsFrom store.nextId country fetched
      ∧ (osmLookup store country fetched).rows.filter
          (fun row => !(row.isOsmFor country)) =
          store.rows.filter (fun row => !(row.isOsmFor country)))
    ∧ osmLookup store country [] = store := by
  constructor
  · intro hne
    have hlen : fetched.length > 0 := List.length_pos.mpr hne
    have hrows : (osmLookup store country fetched).rows =
        store.rows.filter (fun row => !(row.isOsmFor country)) ++
          osmRowsFrom store.nextId country fetched := by
      simp only [osmLookup, if_pos hlen]
      exact foldl_insertRow_rows country fetched
        ⟨store.rows.filter (fun row => !(row.isOsmFor country)), store.nextId⟩
    constructor
    · rw [hrows, List.filter_append,
        filter_osm_of_filter_not country, List.nil_append]
      exact List.filter_eq_self.mpr (fun row hrow => mem_osmRowsFrom hrow)
    · rw [hrows, List.filter_append,
        filter_not_osm_idem country]
      have hnil : (osmRowsFrom store.nextId country fetched).filter
          (fun row => !(row.isOsmFor country)) = [] := by
        refine List.filter_eq_nil_iff.mpr (fun row hrow => ?_)
        simp [mem_osmRowsFrom hrow]
      rw [hnil, List.append_nil]
  · rfl

/-- Witness for claim C4 at a concrete input: a store for Kenya holding one
manual row, one GooglePlaces row, one stale OSM row, and one OSM row for
Uganda; replacing Kenya's OSM data with one fetched record keeps exactly the
new OSM row for Kenya and leaves the other three rows untouched. -/
theorem C4_replace_by_country_witness :
    ([⟨"node/1", "New OSM", "clinic", "", "", ""⟩] : List OsmRecord) ≠ []
    ∧ ((osmLookup
          ⟨[⟨0, "Manual Kenya", "clinic", "", "", "", "Kenya", "manual", none, none,
              some "u1"⟩,
            ⟨1, "G Kenya", "clinic", "", "", "", "Kenya", "GooglePlaces", none,
              some "g1", none⟩,
            ⟨2, "Old OSM", "clinic", "", "", "", "Kenya", "OSM", some "node/9", none,
              none⟩,
            ⟨3, "OSM Uganda", "clinic", "", "", "", "Uganda", "OSM", some "node/8",
              none, none⟩], 4⟩
          "Kenya" [⟨"node/1", "New OSM", "clinic", "", "", ""⟩]).rows.filter
            (fun row => row.isOsmFor "Kenya") =
          [⟨4, "New OSM", "clinic", "", "", "", "Kenya", "OSM", some "node/1", none,
            none⟩]
      ∧ (osmLookup
          ⟨[⟨0, "Manual Kenya", "clinic", "", "", "", "Kenya", "manual", none, none,
              some "u1"⟩,
            ⟨1, "G Kenya", "clinic", "", "", "", "Kenya", "GooglePlaces", none,
              some "g1", none⟩,
            ⟨2, "Old OSM", "clinic", "", "", "", "Kenya", "OSM", some "node/9", none,
              none⟩,
            ⟨3, "OSM Uganda", "clinic", "", "", "", "Uganda", "OSM", some "node/8",
              none, none⟩], 4⟩
          "Kenya" [⟨"node/1", "New OSM", "clinic", "", "", ""⟩]).rows.filter
            (fun row => !(row.isOsmFor "Kenya")) =
          [⟨0, "Manual Kenya", "clinic", "", "", "", "Kenya", "manual", none, none,
            some "u1"⟩,
           ⟨1, "G Kenya", "clinic", "", "", "", "Kenya", "GooglePlaces", none,
            some "g1", none⟩,
           ⟨3, "OSM Uganda", "clinic", "", "", "", "Uganda", "OSM", some "node/8",
            none, none⟩]) :=
  ⟨by decide,
    (C4_replace_by_country
      ⟨[⟨0, "Manual Kenya", "clinic", "", "", "", "Kenya", "manual", none, none,
          some "u1"⟩,
        ⟨1, "G Kenya", "clinic", "", "", "", "Kenya", "GooglePlaces", none,
          some "g1", none⟩,
        ⟨2, "Old OSM", "clinic", "", "", "", "Kenya", "OSM", some "node/9", none,
          none⟩,
        ⟨3, "OSM Uganda", "clinic", "", "", "", "Uganda", "OSM", some "node/8",
          none, none⟩], 4⟩
      "Kenya" [⟨"node/1", "New OSM", "clinic", "", "", ""⟩]).1 (by decide)⟩

theorem updateFrom_id (row : Row) (r : GoogleRecord) : (row.updateFrom r).id = row.id := rfl

theorem updateFrom_created_by (row : Row) (r : GoogleRecord) :
    (row.updateFrom r).created_by = row.created_by := rfl

theorem updateFrom_gpid (row : Row) (r : GoogleRecord) :
    (row.updateFrom r).google_place_id = some r.google_place_id := rfl

theorem updateFrom_idem (row : Row) (r : GoogleRecord) :
    (row.updateFrom r).updateFrom r = row.updateFrom r := rfl

theorem updateFrom_toRow (r : GoogleRecord) (n : Nat) :
    (r.toRow n).updateFrom r = r.toRow n := rfl

theorem updIf_identity (r : GoogleRecord) (row : Row) : SameIdentity row (updIf r row) := by
  unfold updIf
  by_cases h : row.google_place_id == some r.google_place_id
  · have hk : row.google_place_id = some r.google_place_id := by
      simpa using h
    simp [h, SameIdentity, updateFrom_id, updateFrom_created_by, updateFrom_gpid, hk]
  · simp [h, SameIdentity]

theorem sameIdentity_trans {a b c : Row} (h1 : SameIdentity a b) (h2 : SameIdentity b c) :
    SameIdentity a c := by
  obtain ⟨i1, c1, g1⟩ := h1
  obtain ⟨i2, c2, g2⟩ := h2
  exact ⟨i2.trans i1, c2.trans c1, g2.trans g1⟩

theorem applyAll_identity (records : List GoogleRecord) (row : Row) :
    SameIdentity row (applyAll records row) := by
  induction records generalizing row with
  | nil => exact ⟨rfl, rfl, rfl⟩
  | cons r rs ih =>
    exact sameIdentity_trans (updIf_identity r row) (ih (updIf r row))

theorem applyAll_cons (r : GoogleRecord) (rs : List GoogleRecord) (row : Row) :
    applyAll (r :: rs) row = applyAll rs (updIf r row) := rfl

theorem hasKey_iff_mem_keys (s : Store) (k : String) :
    s.hasKey k = true ↔ k ∈ s.keys := by
  simp only [Store.hasKey, Store.keys, List.any_eq_true, List.mem_filterMap]
  constructor
  · rintro ⟨row, hrow, hk⟩
    exact ⟨row, hrow, by simpa using hk⟩
  · rintro ⟨row, hrow, hk⟩
    exact ⟨row, hrow, by simp [hk]⟩

theorem upsertOne_rows (s : Store) (r : GoogleRecord) :
    ∃ news, (upsertOne s r).rows = s.rows.map (updIf r) ++ news
      ∧ ∀ row ∈ news,
          row.created_by = none ∧ row.google_place_id = some r.google_place_id := by
  unfold upsertOne
  by_cases h : s.hasKey r.google_place_id
  · exact ⟨[], by simp [h], by simp⟩
  · refine ⟨[r.toRow s.nextId], ?_, ?_⟩
    · have hmap : s.rows.map (updIf r) = s.rows := by
        have hnone : ∀ row ∈ s.rows, ¬(row.google_place_id == some r.google_place_id) := by
          intro row hrow hbeq
          exact h (List.any_eq_true.mpr ⟨row, hrow, hbeq⟩)
        calc s.rows.map (updIf r) = s.rows.map id := by
              refine List.map_congr_left (fun row hrow => ?_)
              simp [updIf, hnone row hrow]
          _ = s.rows := List.map_id s.rows
      simp [h, insertRow, hmap]
    · intro row hrow
      rcases List.mem_singleton.mp hrow with rfl
      exact ⟨rfl, rfl⟩

theorem upsertOne_nextId (s : Store) (r : GoogleRecord) :
    (upsertOne s r).nextId = if s.hasKey r.google_place_id then s.nextId else s.nextId + 1 := by
  unfold upsertOne
  by_cases h : s.hasKey r.google_place_id <;> simp [h, insertRow]

theorem length_upsertOne (s : Store) (r : GoogleRecord) :
    (upsertOne s r).rows.length =
      s.rows.length + (if s.hasKey r.google_place_id then 0 else 1) := by
  unfold upsertOne
  by_cases h : s.hasKey r.google_place_id <;> simp [h, insertRow]

theorem keys_upsertOne (s : Store) (r : GoogleRecord) :
    (upsertOne s r).keys =
      if s.hasKey r.google_place_id then s.keys else s.keys ++ [r.google_place_id] := by
  unfold upsertOne
  by_cases h : s.hasKey r.google_place_id
  · simp only [if_pos h, Store.keys, List.filterMap_map]
    refine List.filterMap_congr (fun row hrow => ?_)
    show (updIf r row).google_place_id = row.google_place_id
    exact (updIf_identity r row).2.2
  · simp [h, insertRow, Store.keys, List.filterMap_append, GoogleRecord.toRow]

theorem hasKey_upsertOne (s : Store) (r : GoogleRecord) (k : String) :
    (upsertOne s r).hasKey k = (s.hasKey k || (r.google_place_id == k)) := by
  rw [Bool.eq_iff_iff, hasKey_iff_mem_keys, keys_upsertOne]
  by_cases hk : s.hasKey r.google_place_id
  · rw [if_pos hk, ← hasKey_iff_mem_keys]
    constructor
    · intro h
      simp [h]
    · intro h
      rcases Bool.or_eq_true_iff.mp h with h | h
      · exact h
      · have hkk : r.google_place_id = k := by simpa using h
        subst hkk
        exact hk
  · rw [if_neg hk, List.mem_append, List.mem_singleton, ← hasKey_iff_mem_keys]
    constructor
    · rintro (h | rfl)
      · simp [h]
      · simp
    · intro h
      rcases Bool.or_eq_true_iff.mp h with h | h
      · exact Or.inl h
      · exact Or.inr (beq_iff_eq.mp h).symm

theorem keys_nodup_upsertOne (s : Store) (r : GoogleRecord) (h : s.keys.Nodup) :
    (upsertOne s r).keys.Nodup := by
  rw [keys_upsertOne]
  by_cases hk : s.hasKey r.google_place_id
  · simpa [hk] using h
  · have hmem : r.google_place_id ∉ s.keys := fun hmem =>
      hk ((hasKey_iff_mem_keys s r.google_place_id).mpr hmem)
    simp only [if_neg hk]
    exact List.Nodup.append h (List.nodup_singleton _)
      (by simpa [List.disjoint_singleton] using hmem)

theorem upsertAll_cons (s : Store) (r : GoogleRecord) (rs : List GoogleRecord) :
    upsertAll s (r :: rs) = upsertAll (upsertOne s r) rs := rfl

theorem upsertAll_rows (records : List GoogleRecord) (s : Store) :
    ∃ news, (upsertAll s records).rows = s.rows.map (applyAll records) ++ news
      ∧ ∀ row ∈ news, row.created_by = none := by
  induction records generalizing s with
  | nil =>
    refine ⟨[], ?_, by simp⟩
    simp only [upsertAll, List.foldl_nil, List.append_nil]
    rw [show applyAll ([] : List GoogleRecord) = id from rfl, List.map_id]
  | cons r rs ih =>
    obtain ⟨ifNews, hshape, hnew⟩ := upsertOne_rows s r
    obtain ⟨news', hrec, hnew'⟩ := ih (upsertOne s r)
    refine ⟨ifNews.map (applyAll rs) ++ news', ?_, ?_⟩
    · rw [upsertAll_cons, hrec, hshape, List.map_append, List.map_map,
        List.append_assoc]
      rfl
    · intro row hrow
      rcases List.mem_append.mp hrow with hrow | hrow
      · rcases List.mem_map.mp hrow with ⟨row0, hrow0, rfl⟩
        have hident := applyAll_identity rs row0
        rw [hident.2.1, (hnew row0 hrow0).1]
      · exact hnew' row hrow

theorem forall₂_map_self {R : Row → Row → Prop} (g : Row → Row) (l : List Row)
    (h : ∀ x ∈ l, R x (g x)) : List.Forall₂ R l (l.map g) := by
  induction l with
  | nil => exact List.Forall₂.nil
  | cons x xs ih =>
    exact List.Forall₂.cons (h x (List.mem_cons_self x xs))
      (ih (fun y hy => h y (List.mem_cons_of_mem x hy)))

theorem hasKey_upsertAll (records : List GoogleRecord) (s : Store) (k : String) :
    (upsertAll s records).hasKey k =
      (s.hasKey k || records.any (fun r => r.google_place_id == k)) := by
  induction records generalizing s with
  | nil => simp [upsertAll]
  | cons r rs ih =>
    rw [upsertAll_cons, ih, hasKey_upsertOne]
    simp [Bool.or_assoc]

theorem keys_nodup_upsertAll (records : List GoogleRecord) (s : Store)
    (h : s.keys.Nodup) : (upsertAll s records).keys.Nodup := by
  induction records generalizing s with
  | nil => exact h
  | cons r rs ih => exact ih (upsertOne s r) (keys_nodup_upsertOne s r h)

theorem length_upsertAll (records : List GoogleRecord) (s : Store)
    (h : (records.map (fun r => r.google_place_id)).Nodup) :
    (upsertAll s records).rows.length =
      s.rows.length +
        (records.filter (fun r => !(s.hasKey r.google_place_id))).length := by
  induction records generalizing s with
  | nil => simp [upsertAll]
  | cons r rs ih =>
    rw [List.map_cons] at h
    have hnd := List.nodup_cons.mp h
    have hfilter : rs.filter (fun x => !((upsertOne s r).hasKey x.google_place_id)) =
        rs.filter (fun x => !(s.hasKey x.google_place_id)) := by
      refine List.filter_congr (fun x hx => ?_)
      have hxne : ¬ x.google_place_id = r.google_place_id := fun hxe =>
        hnd.1 (List.mem_map.mpr ⟨x, hx, hxe⟩)
      rw [hasKey_upsertOne]
      have hbeq : (r.google_place_id == x.google_place_id) = false := by
        simp
        intro he
        exact absurd he.symm hxne
      simp [hbeq]
    rw [upsertAll_cons, ih (upsertOne s r) hnd.2, hfilter,
      length_upsertOne]
    by_cases hk : s.hasKey r.google_place_id <;>
      simp [List.filter_cons, hk] <;> omega

theorem absorbed_preserved (rs : List GoogleRecord) (s : Store) (r : GoogleRecord)
    (habs : ∀ row ∈ s.rows, row.google_place_id = some r.google_place_id →
      row.updateFrom r = row)
    (hnew : r.google_place_id ∉ rs.map (fun x => x.google_place_id)) :
    ∀ row ∈ (upsertAll s rs).rows,
      row.google_place_id = some r.google_place_id → row.updateFrom r = row := by
  induction rs generalizing s with
  | nil => exact habs
  | cons r' rs' ih =>
    have hne : ¬ r'.google_place_id = r.google_place_id := by
      intro he
      apply hnew
      rw [← he]
      exact List.mem_map.mpr ⟨r', List.mem_cons_self r' rs', rfl⟩
    rw [upsertAll_cons]
    refine ih (upsertOne s r') ?_ (fun hmem => hnew (List.mem_cons_of_mem _ hmem))
    intro row hrow hkey
    obtain ⟨news, hshape, hnews⟩ := upsertOne_rows s r'
    rw [hshape] at hrow
    rcases List.mem_append.mp hrow with hrow | hrow
    · rcases List.mem_map.mp hrow with ⟨row0, hrow0, rfl⟩
      have hkey0 : row0.google_place_id = some r.google_place_id := by
        rw [← (updIf_identity r' row0).2.2]
        exact hkey
      have hnotr' : ¬(row0.google_place_id == some r'.google_place_id) = true := by
        rw [hkey0]
        simp
        intro he
        exact absurd he.symm hne
      have hfix : updIf r' row0 = row0 := by
        simp [updIf, hnotr']
      rw [hfix] at hkey ⊢
      exact habs row0 hrow0 hkey0
    · exfalso
      have hkey' : row.google_place_id = some r'.google_place_id :=
        (hnews row hrow).2
      rw [hkey] at hkey'
      exact hne (Option.some.inj hkey').symm

theorem absorbed_upsertOne (s : Store) (r : GoogleRecord) :
    ∀ row ∈ (upsertOne s r).rows,
      row.google_place_id = some r.google_place_id → row.updateFrom r = row := by
  intro row hrow hkey
  unfold upsertOne at hrow
  by_cases hk : s.hasKey r.google_place_id
  · rw [if_pos hk] at hrow
    rcases List.mem_map.mp hrow with ⟨row0, _, rfl⟩
    unfold updIf
    by_cases hm : (row0.google_place_id == some r.google_place_id) = true
    · simp only [hm, if_pos]
      exact updateFrom_idem row0 r
    · simp only [hm]
      unfold updIf at hkey
      rw [if_neg (by simpa using hm)] at hkey ⊢
      exact absurd hkey (by simpa using hm)
  · rw [if_neg hk] at hrow
    rcases List.mem_append.mp hrow with hrow | hrow
    · exfalso
      apply hk
      exact List.any_eq_true.mpr ⟨row, hrow, by simp [hkey]⟩
    · rcases List.mem_singleton.mp hrow with rfl
      exact updateFrom_toRow r s.nextId

theorem absorbed_upsertAll (records : List GoogleRecord) (s : Store)
    (h : (records.map (fun r => r.google_place_id)).Nodup) :
    ∀ r ∈ records, ∀ row ∈ (upsertAll s records).rows,
      row.google_place_id = some r.google_place_id → row.updateFrom r = row := by
  induction records generalizing s with
  | nil =>
    intro r hr
    cases hr
  | cons r0 rs ih =>
    rw [List.map_cons] at h
    have hnd := List.nodup_cons.mp h
    intro r hr
    rcases List.mem_cons.mp hr with rfl | hr
    · rw [upsertAll_cons]
      exact absorbed_preserved rs (upsertOne s r) r (absorbed_upsertOne s r) hnd.1
    · rw [upsertAll_cons]
      exact ih (upsertOne s r0) hnd.2 r hr

theorem hasKey_after_upsertAll (records : List GoogleRecord) (s : Store) :
    ∀ r ∈ records, (upsertAll s records).hasKey r.google_place_id = true := by
  intro r hr
  rw [hasKey_upsertAll]
  refine Bool.or_eq_true_iff.mpr (Or.inr ?_)
  exact List.any_eq_true.mpr ⟨r, hr, by simp⟩

theorem upsertAll_fixpoint (records : List GoogleRecord) (s : Store)
    (h : ∀ r ∈ records, s.hasKey r.google_place_id = true ∧
      ∀ row ∈ s.rows, row.google_place_id = some r.google_place_id →
        row.updateFrom r = row) :
    upsertAll s records = s := by
  induction records generalizing s with
  | nil => rfl
  | cons r rs ih =>
    have hr := h r (List.mem_cons_self r rs)
    have hone : upsertOne s r = s := by
      unfold upsertOne
      rw [if_pos hr.1]
      have hmap : s.rows.map (updIf r) = s.rows := by
        have hcongr : s.rows.map (updIf r) = s.rows.map id := by
          refine List.map_congr_left (fun row hrow => ?_)
          unfold updIf
          by_cases hm : (row.google_place_id == some r.google_place_id) = true
          · rw [if_pos hm]
            exact hr.2 row hrow (by simpa using hm)
          · rw [if_neg hm]
            rfl
        rw [hcongr, List.map_id]
      rw [hmap]
    rw [upsertAll_cons, hone]
    exact ih s (fun r' hr' => h r' (List.mem_cons_of_mem r hr'))

theorem upsertAll_idem (records : List GoogleRecord) (s : Store)
    (h : (records.map (fun r => r.google_place_id)).Nodup) :
    upsertAll (upsertAll s records) records = upsertAll s records := by
  apply upsertAll_fixpoint
  intro r hr
  exact ⟨hasKey_after_upsertAll records s r hr, absorbed_upsertAll records s h r hr⟩

theorem runBatches_no_fail (bs : List (List GoogleRecord)) (s : Store) (i : Nat) :
    runBatches (fun _ => false) s i bs = (bs.foldl upsertBatch s, false) := by
  induction bs generalizing s i with
  | nil => rfl
  | cons b bs ih => simp [runBatches, ih]

theorem foldl_upsertBatch_join (bs : List (List GoogleRecord)) (s : Store) :
    bs.foldl upsertBatch s = upsertAll s bs.flatten := by
  induction bs generalizing s with
  | nil => rfl
  | cons b bs ih =>
    rw [List.foldl_cons, ih]
    simp [upsertAll, upsertBatch, List.foldl_append]

theorem chunksOfGo_flatten (fuel : Nat) (l : List GoogleRecord) :
    (chunksOfGo fuel l).flatten = l := by
  induction fuel generalizing l with
  | zero =>
    cases l with
    | nil => rfl
    | cons r rs => simp [chunksOfGo]
  | succ fuel ih =>
    cases l with
    | nil => rfl
    | cons r rs =>
      simp only [chunksOfGo, List.flatten_cons]
      rw [ih, List.take_append_drop]

theorem chunksOf_flatten (l : List GoogleRecord) : (chunksOf l).flatten = l :=
  chunksOfGo_flatten l.length l

theorem chunksOfGo_sizes (fuel : Nat) (l : List GoogleRecord)
    (hlen : l.length ≤ fuel + 1) :
    ∀ b ∈ chunksOfGo fuel l, b.length ≤ 10 ∧ b ≠ [] := by
  induction fuel generalizing l with
  | zero =>
    cases l with
    | nil =>
      intro b hb
      cases hb
    | cons r rs =>
      have hrs : rs = [] := by
        have h0 : rs.length + 1 ≤ 0 + 1 := by simpa using hlen
        have h1 : rs.length = 0 := by omega
        exact List.length_eq_zero.mp h1
      subst hrs
      intro b hb
      rcases List.mem_singleton.mp hb with rfl
      exact ⟨by simp, by simp⟩
  | succ fuel ih =>
    cases l with
    | nil =>
      intro b hb
      cases hb
    | cons r rs =>
      intro b hb
      simp only [chunksOfGo] at hb
      rcases List.mem_cons.mp hb with rfl | hb
      · refine ⟨List.length_take_le 10 (r :: rs), ?_⟩
        simp [List.take_succ_cons]
      · refine ih ((r :: rs).drop 10) ?_ b hb
        simp only [List.length_drop, List.length_cons]
        simp only [List.length_cons] at hlen
        omega

theorem chunksOf_sizes (l : List GoogleRecord) :
    ∀ b ∈ chunksOf l, b.length ≤ 10 ∧ b ≠ [] :=
  chunksOfGo_sizes l.length l (Nat.le_succ l.length)

theorem googleUpsertStep_no_fail (store : Store) (records : List GoogleRecord) :
    googleUpsertStep store records (fun _ => false) = (upsertAll store records, false) := by
  unfold googleUpsertStep
  by_cases h : records.length > 0
  · rw [if_pos h, runBatches_no_fail, foldl_upsertBatch_join, chunksOf_flatten]
  · rw [if_neg h]
    have hnil : records = [] := List.length_eq_zero.mp (by omega)
    subst hnil
    rfl

theorem runBatches_fail_at (fail : Nat → Bool) :
    ∀ (bs : List (List GoogleRecord)) (s : Store) (i j : Nat),
      (∀ k, k < j → fail (i + k) = false) → fail (i + j) = true → j < bs.length →
      runBatches fail s i bs = ((bs.take j).foldl upsertBatch s, true) := by
  intro bs
  induction bs with
  | nil =>
    intro s i j _ _ hj
    exact absurd hj (by simp)
  | cons b bs ih =>
    intro s i j hbefore hj hlen
    cases j with
    | zero =>
      rw [Nat.add_zero] at hj
      simp [runBatches, hj]
    | succ j' =>
      have h0 : fail i = false := by
        have := hbefore 0 (Nat.succ_pos j')
        simpa using this
      simp only [runBatches, h0, Bool.false_eq_true, if_false]
      rw [ih (upsertBatch s b) (i + 1) j' ?_ ?_ ?_]
      · rw [List.take_succ_cons, List.foldl_cons]
      · intro k hk
        have heq : i + 1 + k = i + (k + 1) := by omega
        rw [heq]
        exact hbefore (k + 1) (Nat.succ_lt_succ hk)
      · have heq : i + 1 + j' = i + (j' + 1) := by omega
        rw [heq]
        exact hj
      · exact Nat.lt_of_succ_lt_succ (by simpa using hlen)

/-- Claim C5: under the store's unique-key constraint (non-null
`google_place_id` values pairwise distinct), the app invariant that a
non-null `google_place_id` implies `source = GooglePlaces` (so the conflict
key coincides with the claim's `(source, externalId)` identity), and
key-distinct input records (guaranteed by the adapter's dedup), the
upsert-by-externalId refresh: runs through the batched handler as a plain
left-to-right upsert of the records; inserts a new row exactly for the
records whose key is absent from the store and otherwise updates the
existing row's mutable fields in place — every pre-existing row stays in
position with unchanged `id`, `created_by` and conflict key, and the rows
appended beyond them carry null `created_by`; it never leaves two rows with
the same key; and it is idempotent — a second run with the identical record
set changes nothing, so exactly one row per externalId remains, with
unchanged id. -/
theorem C5_upsert_by_external_id (store : Store) (records : List GoogleRecord)
    (hkeys : store.keys.Nodup)
    (hsource : ∀ row ∈ store.rows, row.google_place_id ≠ none →
      row.source = "GooglePlaces")
    (hrecords : (records.map (fun r => r.google_place_id)).Nodup) :
    googleUpsertStep store records (fun _ => false) = (upsertAll store records, false)
    ∧ (∀ k, store.hasKey k = true ↔
        ∃ row ∈ store.rows, row.source = "GooglePlaces" ∧ row.google_place_id = some k)
    ∧ (upsertAll store records).rows.length =
        store.rows.length +
          (records.filter (fun r => !(store.hasKey r.google_place_id))).length
    ∧ (∃ news, (upsertAll store records).rows =
          store.rows.map (applyAll records) ++ news
        ∧ List.Forall₂ SameIdentity store.rows (store.rows.map (applyAll records))
        ∧ ∀ row ∈ news, row.created_by = none)
    ∧ (upsertAll store records).keys.Nodup
    ∧ upsertAll (upsertAll store records) records = upsertAll store records := by
  refine ⟨googleUpsertStep_no_fail store records, ?_,
    length_upsertAll records store hrecords, ?_,
    keys_nodup_upsertAll records store hkeys,
    upsertAll_idem records store hrecords⟩
  · intro k
    constructor
    · intro h
      simp only [Store.hasKey, List.any_eq_true] at h
      obtain ⟨row, hrow, hbeq⟩ := h
      have hkk : row.google_place_id = some k := by simpa using hbeq
      exact ⟨row, hrow, hsource row hrow (by simp [hkk]), hkk⟩
    · rintro ⟨row, hrow, _, hk⟩
      exact List.any_eq_true.mpr ⟨row, hrow, by simp [hk]⟩
  · obtain ⟨news, hshape, hnews⟩ := upsertAll_rows records store
    exact ⟨news, hshape,
      forall₂_map_self (applyAll records) store.rows
        (fun row _ => applyAll_identity records row), hnews⟩

/-- Witness for claim C5 at a concrete input: a store with one existing
GooglePlaces row (key `g1`) and one manual row; upserting a changed record
for `g1` plus a new record for `g2` yields three rows (one insert, one
in-place update), and a second identical run changes nothing. -/
theorem C5_upsert_by_external_id_witness :
    (upsertAll
        ⟨[⟨0, "Old Clinic", "clinic", "Old addr", "", "", "Jordan", "GooglePlaces",
            none, some "g1", some "admin"⟩,
          ⟨1, "Manual", "clinic", "", "", "", "Jordan", "manual", none, none,
            some "u1"⟩], 2⟩
        [⟨"g1", "New Clinic", "clinic", "New addr", "123", "9-5", "Jordan"⟩,
         ⟨"g2", "Second", "clinic", "A2", "", "", "Jordan"⟩]).rows.length = 3
    ∧ upsertAll
        (upsertAll
          ⟨[⟨0, "Old Clinic", "clinic", "Old addr", "", "", "Jordan", "GooglePlaces",
              none, some "g1", some "admin"⟩,
            ⟨1, "Manual", "clinic", "", "", "", "Jordan", "manual", none, none,
              some "u1"⟩], 2⟩
          [⟨"g1", "New Clinic", "clinic", "New addr", "123", "9-5", "Jordan"⟩,
           ⟨"g2", "Second", "clinic", "A2", "", "", "Jordan"⟩])
        [⟨"g1", "New Clinic", "clinic", "New addr", "123", "9-5", "Jordan"⟩,
         ⟨"g2", "Second", "clinic", "A2", "", "", "Jordan"⟩] =
      upsertAll
        ⟨[⟨0, "Old Clinic", "clinic", "Old addr", "", "", "Jordan", "GooglePlaces",
            none, some "g1", some "admin"⟩,
          ⟨1, "Manual", "clinic", "", "", "", "Jordan", "manual", none, none,
            some "u1"⟩], 2⟩
        [⟨"g1", "New Clinic", "clinic", "New addr", "123", "9-5", "Jordan"⟩,
         ⟨"g2", "Second", "clinic", "A2", "", "", "Jordan"⟩] :=
  ⟨(C5_upsert_by_external_id
      ⟨[⟨0, "Old Clinic", "clinic", "Old addr", "", "", "Jordan", "GooglePlaces",
          none, some "g1", some "admin"⟩,
        ⟨1, "Manual", "clinic", "", "", "", "Jordan", "manual", none, none,
          some "u1"⟩], 2⟩
      [⟨"g1", "New Clinic", "clinic", "New addr", "123", "9-5", "Jordan"⟩,
       ⟨"g2", "Second", "clinic", "A2", "", "", "Jordan"⟩]
      (by decide) (by decide) (by decide)).2.2.1,
   (C5_upsert_by_external_id
      ⟨[⟨0, "Old Clinic", "clinic", "Old addr", "", "", "Jordan", "GooglePlaces",
          none, some "g1", some "admin"⟩,
        ⟨1, "Manual", "clinic", "", "", "", "Jordan", "manual", none, none,
          some "u1"⟩], 2⟩
      [⟨"g1", "New Clinic", "clinic", "New addr", "123", "9-5", "Jordan"⟩,
       ⟨"g2", "Second", "clinic", "A2", "", "", "Jordan"⟩]
      (by decide) (by decide) (by decide)).2.2.2.2.2⟩

/-- Counterexample to claim C6: with 11 records the handler runs two
batches; when the first batch succeeds and the database rejects the second,
the refresh errors, but the first batch's 10 upserts remain committed — the
store is NOT left as it was before the invocation, so the refresh is not
all-or-nothing. -/
theorem C6_counterexample :
    (googleUpsertStep ⟨[], 0⟩
        ((List.range 11).map
          (fun i => ⟨toString i, "Svc", "clinic", "", "", "", "Jordan"⟩))
        (fun i => i == 1)).2 = true
    ∧ (googleUpsertStep ⟨[], 0⟩
        ((List.range 11).map
          (fun i => ⟨toString i, "Svc", "clinic", "", "", "", "Jordan"⟩))
        (fun i => i == 1)).1 ≠ ⟨[], 0⟩
    ∧ (googleUpsertStep ⟨[], 0⟩
        ((List.range 11).map
          (fun i => ⟨toString i, "Svc", "clinic", "", "", "", "Jordan"⟩))
        (fun i => i == 1)).1.rows.length = 10 := by
  refine ⟨by decide, by decide, by decide⟩

/-- Claim C6 (amended): the upsert refresh processes records in batches of
at most 10; a rejected batch is not committed, the remaining batches are
abandoned (fail-fast) and the error is surfaced to the caller; but the
refresh is all-or-nothing only per batch, not per invocation — the batches
before the first failing one remain committed, so on error the store
reflects exactly the prefix of batches that succeeded. -/
theorem C6_batched_fail_fast (store : Store) (records : List GoogleRecord)
    (fail : Nat → Bool) (j : Nat)
    (hbefore : ∀ k, k < j → fail k = false) (hj : fail j = true)
    (hlt : j < (chunksOf records).length) :
    (∀ b ∈ chunksOf records, b.length ≤ 10 ∧ b ≠ [])
    ∧ (∀ noFail : Nat → Bool, (∀ i, noFail i = false) →
        googleUpsertStep store records noFail = (upsertAll store records, false))
    ∧ googleUpsertStep store records fail =
        (upsertAll store ((chunksOf records).take j).flatten, true) := by
  refine ⟨chunksOf_sizes records, ?_, ?_⟩
  · intro noFail hno
    have hfun : noFail = (fun _ => false) := funext (fun i => hno i)
    rw [hfun]
    exact googleUpsertStep_no_fail store records
  · have hpos : records.length > 0 := by
      by_contra hle
      have : records = [] := List.length_eq_zero.mp (by omega)
      subst this
      simp [chunksOf, chunksOfGo] at hlt
    unfold googleUpsertStep
    rw [if_pos hpos]
    have hrb := runBatches_fail_at fail (chunksOf records) store 0 j
      (fun k hk => by simpa using hbefore k hk) (by simpa using hj) hlt
    rw [hrb, foldl_upsertBatch_join]

/-- Witness for claim C6 at a concrete input: 11 records, the database
rejects the second batch (index 1); the refresh errors with exactly the
first batch of 10 records committed. -/
theorem C6_batched_fail_fast_witness :
    googleUpsertStep ⟨[], 0⟩
        ((List.range 11).map
          (fun i => ⟨toString i, "Svc", "clinic", "", "", "", "Jordan"⟩))
        (fun i => i == 1) =
      (upsertAll ⟨[], 0⟩
        ((chunksOf ((List.range 11).map
            (fun i => ⟨toString i, "Svc", "clinic", "", "", "", "Jordan"⟩))).take 1).flatten,
       true) :=
  (C6_batched_fail_fast ⟨[], 0⟩
      ((List.range 11).map
        (fun i => ⟨toString i, "Svc", "clinic", "", "", "", "Jordan"⟩))
      (fun i => i == 1) 1
      (by decide) (by decide) (by decide)).2.2

theorem mem_dedupeGo {κ : Type} [DecidableEq κ] (key : α → κ) :
    ∀ (seen : List κ) (l : List α) (x : α),
      x ∈ dedupeGo key seen l → x ∈ l ∧ key x ∉ seen := by
  intro seen l
  induction l generalizing seen with
  | nil =>
    intro x hx
    cases hx
  | cons y ys ih =>
    intro x hx
    by_cases hy : key y ∈ seen
    · simp only [dedupeGo, if_pos hy] at hx
      obtain ⟨hmem, hns⟩ := ih seen x hx
      exact ⟨List.mem_cons_of_mem y hmem, hns⟩
    · simp only [dedupeGo, if_neg hy] at hx
      rcases List.mem_cons.mp hx with rfl | hx
      · exact ⟨List.mem_cons_self x ys, hy⟩
      · obtain ⟨hmem, hns⟩ := ih (key y :: seen) x hx
        exact ⟨List.mem_cons_of_mem y hmem, fun hs => hns (List.mem_cons_of_mem _ hs)⟩

theorem dedupeGo_sublist {κ : Type} [DecidableEq κ] (key : α → κ) :
    ∀ (seen : List κ) (l : List α), List.Sublist (dedupeGo key seen l) l := by
  intro seen l
  induction l generalizing seen with
  | nil => exact List.Sublist.refl []
  | cons y ys ih =>
    by_cases hy : key y ∈ seen
    · simp only [dedupeGo, if_pos hy]
      exact (ih seen).cons y
    · simp only [dedupeGo, if_neg hy]
      exact (ih (key y :: seen)).cons₂ y

theorem dedupeGo_keys_nodup {κ : Type} [DecidableEq κ] (key : α → κ) :
    ∀ (seen : List κ) (l : List α), ((dedupeGo key seen l).map key).Nodup := by
  intro seen l
  induction l generalizing seen with
  | nil => simp [dedupeGo]
  | cons y ys ih =>
    by_cases hy : key y ∈ seen
    · simp only [dedupeGo, if_pos hy]
      exact ih seen
    · simp only [dedupeGo, if_neg hy, List.map_cons]
      refine List.nodup_cons.mpr ⟨?_, ih (key y :: seen)⟩
      intro hmem
      rcases List.mem_map.mp hmem with ⟨x, hx, hk⟩
      have hns := (mem_dedupeGo key (key y :: seen) ys x hx).2
      exact hns (by rw [hk]; exact List.mem_cons_self _ _)

theorem mem_keys_dedupeGo {κ : Type} [DecidableEq κ] (key : α → κ) :
    ∀ (seen : List κ) (l : List α) (k : κ),
      k ∈ (dedupeGo key seen l).map key ↔ k ∈ l.map key ∧ k ∉ seen := by
  intro seen l
  induction l generalizing seen with
  | nil => simp [dedupeGo]
  | cons y ys ih =>
    intro k
    by_cases hy : key y ∈ seen
    · simp only [dedupeGo, if_pos hy, List.map_cons, List.mem_cons]
      rw [ih seen k]
      constructor
      · rintro ⟨hk, hns⟩
        exact ⟨Or.inr hk, hns⟩
      · rintro ⟨hk | hk, hns⟩
        · exact absurd (hk ▸ hy) hns
        · exact ⟨hk, hns⟩
    · simp only [dedupeGo, if_neg hy, List.map_cons, List.mem_cons]
      rw [ih (key y :: seen) k]
      by_cases hk : k = key y
      · subst hk
        simp [hy]
      · constructor
        · rintro (hk' | ⟨hmem, hns⟩)
          · exact absurd hk' hk
          · exact ⟨Or.inr hmem, fun hs => hns (List.mem_cons_of_mem _ hs)⟩
        · rintro ⟨hk' | hmem, hns⟩
          · exact absurd hk' hk
          · refine Or.inr ⟨hmem, ?_⟩
            intro hs
            rcases List.mem_cons.mp hs with he | hs
            · exact hk he
            · exact hns hs

theorem dedupeGo_find {κ : Type} [DecidableEq κ] (key : α → κ) :
    ∀ (seen : List κ) (l : List α) (y : α), y ∈ dedupeGo key seen l →
      l.find? (fun z => key z == key y) = some y := by
  intro seen l
  induction l generalizing seen with
  | nil =>
    intro y hy
    cases hy
  | cons x xs ih =>
    intro y hy
    by_cases hx : key x ∈ seen
    · simp only [dedupeGo, if_pos hx] at hy
      have hne : ¬ key x = key y := by
        intro he
        exact (mem_dedupeGo key seen xs y hy).2 (he ▸ hx)
      rw [List.find?_cons_of_neg _ (by simpa using hne)]
      exact ih seen y hy
    · simp only [dedupeGo, if_neg hx] at hy
      rcases List.mem_cons.mp hy with rfl | hy
      · exact List.find?_cons_of_pos _ (by simp)
      · have hne : ¬ key x = key y := by
          intro he
          exact (mem_dedupeGo key (key x :: seen) xs y hy).2
            (by rw [← he]; exact List.mem_cons_self _ _)
        rw [List.find?_cons_of_neg _ (by simpa using hne)]
        exact ih (key x :: seen) y hy

theorem dedupeGo_of_nodup {κ : Type} [DecidableEq κ] (key : α → κ) :
    ∀ (l : List α) (seen : List κ), (l.map key).Nodup →
      (∀ x ∈ l, key x ∉ seen) → dedupeGo key seen l = l := by
  intro l
  induction l with
  | nil =>
    intro seen _ _
    rfl
  | cons x xs ih =>
    intro seen hnd hns
    rw [List.map_cons] at hnd
    have hnd' := List.nodup_cons.mp hnd
    have hx : key x ∉ seen := hns x (List.mem_cons_self x xs)
    simp only [dedupeGo, if_neg hx]
    congr 1
    refine ih (key x :: seen) hnd'.2 ?_
    intro z hz hmem
    rcases List.mem_cons.mp hmem with he | hs
    · exact hnd'.1 (by rw [← he]; exact List.mem_map.mpr ⟨z, hz, rfl⟩)
    · exact hns z (List.mem_cons_of_mem x hz) hs

/-- Claim C8: for every input sequence and identity-key function, the
deduplication step discards items only (its output is a sublist), contains
each input key exactly once (keys pairwise distinct, key set preserved),
keeps for each key exactly the first item of the input carrying it, and is
idempotent: re-running it on its own output returns the output unchanged. -/
theorem C8_dedupe_first_seen {κ : Type} [DecidableEq κ] (key : α → κ) (l : List α) :
    List.Sublist (dedupe key l) l
    ∧ ((dedupe key l).map key).Nodup
    ∧ (∀ k, k ∈ (dedupe key l).map key ↔ k ∈ l.map key)
    ∧ (∀ y ∈ dedupe key l, l.find? (fun z => key z == key y) = some y)
    ∧ dedupe key (dedupe key l) = dedupe key l := by
  refine ⟨dedupeGo_sublist key [] l, dedupeGo_keys_nodup key [] l, ?_,
    fun y hy => dedupeGo_find key [] l y hy, ?_⟩
  · intro k
    have h := mem_keys_dedupeGo key [] l k
    simpa using h
  · exact dedupeGo_of_nodup key (dedupe key l) [] (dedupeGo_keys_nodup key [] l)
      (fun x _ hmem => by cases hmem)

/-- Counterexample to claim C9: a place whose summary lacks coordinates and
whose details call fails is NOT dropped — the enrichment stage keeps the
item (with no geometry) in the adapter output; no drop-with-warning branch
exists for coordinate-less items. -/
theorem C9_counterexample :
    enrichAll [⟨"p1", "NoGeo Clinic", "Amman", none⟩] (fun _ => none) "Jordan" =
      [⟨"p1", "NoGeo Clinic", "Amman", none, none, none, none, "Jordan"⟩] := rfl

/-- Claim C9 (amended): when the per-item details call fails the item is
always kept, using only its summary fields plus the resolved country — also
when the summary lacks coordinates, since no drop branch exists
(`getPlaceDetails` returns null on every failure and the catch keeps the
place); no individual enrichment failure removes other items or fails the
call: the output is exactly the per-item enrichment of every deduplicated
summary. -/
theorem C9_enrichment_keeps_items (places : List PlaceSummary)
    (details : String → Option PlaceDetails) (country : String) :
    (enrichAll places details country).length = places.length
    ∧ (∀ p ∈ places,
        enrichPlace p (details p.place_id) country ∈ enrichAll places details country)
    ∧ (∀ p : PlaceSummary, details p.place_id = none →
        enrichPlace p (details p.place_id) country =
          ⟨p.place_id, p.name, p.vicinity, p.geometry, none, none, none, country⟩)
    ∧ (∀ (p : PlaceSummary) (d d' : String → Option PlaceDetails),
        d p.place_id = d' p.place_id →
        enrichPlace p (d p.place_id) country = enrichPlace p (d' p.place_id) country) := by
  refine ⟨by simp [enrichAll], ?_, ?_, ?_⟩
  · intro p hp
    exact List.mem_map.mpr ⟨p, hp, rfl⟩
  · intro p hd
    rw [hd]
    rfl
  · intro p d d' h
    rw [h]

/-- Claim C10: the `google-places` handler does not fail on a missing or
malformed `location` field: it searches centred at null island `(0, 0)`; a
well-formed `{lat, lng}` object is used exactly as given; an omitted radius
defaults to 50000. -/
theorem C10_location_defaults :
    searchLocationOf .missing = (0, 0)
    ∧ searchLocationOf .malformed = (0, 0)
    ∧ (∀ lat lng : Int, searchLocationOf (.coords lat lng) = (lat, lng))
    ∧ effectiveRadius none = 50000 :=
  ⟨rfl, rfl, fun _ _ => rfl, rfl⟩

/-- Claim C7: a resilient fetch call configured with `maxRetries = 3` issues
at most 3 attempts; the frontend client's sleep between attempts `i` and
`i+1` is `min(backoff * 2^i + jitter, 5000)`, and the edge-function client's
sleep `2^i * 1000` equals `min(1000 * 2^i + 0, 5000)` for every sleep the
3-attempt loop can perform (`i < 2`), so both fit the claimed
`min(baseDelay * 2^i + jitter, capDelay)` schedule with bounded jitter; the
total elapsed wait is bounded by the sum of the per-attempt delays; a
successful result is always the value returned by one of the at most 3
attempts (never a partial response); and when all 3 attempts fail the call
fails carrying the last attempt's error, after exactly 3 attempts and both
sleeps. -/
theorem C7_retry_backoff_bound (backoff : Nat) (jitter : Nat → Nat) :
    (∀ (attempt : Nat → Except String α) (delay : Nat → Nat),
        (retryFetch attempt delay 3).2.1 ≤ 3)
    ∧ (∀ i, frontendDelay backoff jitter i = min (backoff * 2 ^ i + jitter i) 5000)
    ∧ (∀ i, i < 2 → edgeDelay i = min (1000 * 2 ^ i + 0) 5000)
    ∧ (∀ (attempt : Nat → Except String α) (delay : Nat → Nat),
        (retryFetch attempt delay 3).2.2 ≤ delay 0 + delay 1)
    ∧ (∀ (attempt : Nat → Except String α) (delay : Nat → Nat) (v : α)
        (rest : Nat × Nat), retryFetch attempt delay 3 = (.ok v, rest) →
        ∃ i, i < 3 ∧ attempt i = .ok v)
    ∧ (∀ (attempt : Nat → Except String α) (e : Nat → String) (delay : Nat → Nat),
        (∀ i, i < 3 → attempt i = .error (e i)) →
        retryFetch attempt delay 3 = (.error (e 2), 3, delay 1 + delay 0)) := by
  refine ⟨?_, fun i => rfl, by decide, ?_, ?_, ?_⟩
  · intro attempt delay
    rcases h0 : attempt 0 with e0 | v0 <;> rcases h1 : attempt 1 with e1 | v1 <;>
      rcases h2 : attempt 2 with e2 | v2 <;>
      simp [retryFetch, retryGo, h0, h1, h2]
  · intro attempt delay
    rcases h0 : attempt 0 with e0 | v0 <;> rcases h1 : attempt 1 with e1 | v1 <;>
      rcases h2 : attempt 2 with e2 | v2 <;>
      simp [retryFetch, retryGo, h0, h1, h2] <;> omega
  · intro attempt delay v rest heq
    rcases h0 : attempt 0 with e0 | v0
    · rcases h1 : attempt 1 with e1 | v1
      · rcases h2 : attempt 2 with e2 | v2
        · rw [retryFetch] at heq
          simp [retryGo, h0, h1, h2] at heq
        · refine ⟨2, by omega, ?_⟩
          rw [retryFetch] at heq
          simp [retryGo, h0, h1, h2] at heq
          rw [h2, heq.1]
      · refine ⟨1, by omega, ?_⟩
        rw [retryFetch] at heq
        simp [retryGo, h0, h1] at heq
        rw [h1, heq.1]
    · refine ⟨0, by omega, ?_⟩
      rw [retryFetch] at heq
      simp [retryGo, h0] at heq
      rw [h0, heq.1]
  · intro attempt e delay hfail
    have h0 := hfail 0 (by omega)
    have h1 := hfail 1 (by omega)
    have h2 := hfail 2 (by omega)
    simp [retryFetch, retryGo, h0, h1, h2]

end RefugeeAssist
